/-
Verification of the GitHub repository scrapper (task2/main.py) and its
orchestration layer, as a shallow embedding in Lean 4.

Python/JSON values are modelled by `JVal`; Python dictionary access
(`d.get(k, default)`, which raises AttributeError on non-dicts) is
modelled by `pyGetD` returning `Except PyErr`.  Fallible Python code is
modelled in the `Except PyErr` monad.  Time, for the rate limiter, is
modelled by rational numbers with exact sleeps.
-/
import Mathlib

namespace Scrapper

/-- Python exception kinds that the modelled code can raise. -/
inductive PyErr where
  | attributeError
  | valueError
  | indexError
  | requestFailed
  deriving DecidableEq

/-- A JSON-like Python value (what `response.json()` can produce). -/
inductive JVal where
  | null
  | bool (b : Bool)
  | num (n : Int)
  | str (s : String)
  | arr (elems : List JVal)
  | obj (fields : List (String × JVal))

mutual

/-- Decidable equality for `JVal` (nested inductive, so written by hand). -/
def JVal.decEq : (a b : JVal) → Decidable (a = b)
  | .null, .null => isTrue rfl
  | .null, .bool _ => isFalse (fun h => JVal.noConfusion h)
  | .null, .num _ => isFalse (fun h => JVal.noConfusion h)
  | .null, .str _ => isFalse (fun h => JVal.noConfusion h)
  | .null, .arr _ => isFalse (fun h => JVal.noConfusion h)
  | .null, .obj _ => isFalse (fun h => JVal.noConfusion h)
  | .bool _, .null => isFalse (fun h => JVal.noConfusion h)
  | .bool x, .bool y =>
      if h : x = y then isTrue (by rw [h]) else
        isFalse (fun hh => h (by injection hh))
  | .bool _, .num _ => isFalse (fun h => JVal.noConfusion h)
  | .bool _, .str _ => isFalse (fun h => JVal.noConfusion h)
  | .bool _, .arr _ => isFalse (fun h => JVal.noConfusion h)
  | .bool _, .obj _ => isFalse (fun h => JVal.noConfusion h)
  | .num _, .null => isFalse (fun h => JVal.noConfusion h)
  | .num _, .bool _ => isFalse (fun h => JVal.noConfusion h)
  | .num x, .num y =>
      if h : x = y then isTrue (by rw [h]) else
        isFalse (fun hh => h (by injection hh))
  | .num _, .str _ => isFalse (fun h => JVal.noConfusion h)
  | .num _, .arr _ => isFalse (fun h => JVal.noConfusion h)
  | .num _, .obj _ => isFalse (fun h => JVal.noConfusion h)
  | .str _, .null => isFalse (fun h => JVal.noConfusion h)
  | .str _, .bool _ => isFalse (fun h => JVal.noConfusion h)
  | .str _, .num _ => isFalse (fun h => JVal.noConfusion h)
  | .str x, .str y =>
      if h : x = y then isTrue (by rw [h]) else
        isFalse (fun hh => h (by injection hh))
  | .str _, .arr _ => isFalse (fun h => JVal.noConfusion h)
  | .str _, .obj _ => isFalse (fun h => JVal.noConfusion h)
  | .arr _, .null => isFalse (fun h => JVal.noConfusion h)
  | .arr _, .bool _ => isFalse (fun h => JVal.noConfusion h)
  | .arr _, .num _ => isFalse (fun h => JVal.noConfusion h)
  | .arr _, .str _ => isFalse (fun h => JVal.noConfusion h)
  | .arr x, .arr y =>
      match JVal.decEqList x y with
      | isTrue h => isTrue (by rw [h])
      | isFalse h => isFalse (fun hh => h (by injection hh))
  | .arr _, .obj _ => isFalse (fun h => JVal.noConfusion h)
  | .obj _, .null => isFalse (fun h => JVal.noConfusion h)
  | .obj _, .bool _ => isFalse (fun h => JVal.noConfusion h)
  | .obj _, .num _ => isFalse (fun h => JVal.noConfusion h)
  | .obj _, .str _ => isFalse (fun h => JVal.noConfusion h)
  | .obj _, .arr _ => isFalse (fun h => JVal.noConfusion h)
  | .obj x, .obj y =>
      match JVal.decEqFields x y with
      | isTrue h => isTrue (by rw [h])
      | isFalse h => isFalse (fun hh => h (by injection hh))

/-- Decidable equality for lists of `JVal`. -/
def JVal.decEqList : (a b : List JVal) → Decidable (a = b)
  | [], [] => isTrue rfl
  | [], _ :: _ => isFalse (fun h => List.noConfusion h)
  | _ :: _, [] => isFalse (fun h => List.noConfusion h)
  | x :: xs, y :: ys =>
      match JVal.decEq x y, JVal.decEqList xs ys with
      | isTrue h1, isTrue h2 => isTrue (by rw [h1, h2])
      | isFalse h1, _ => isFalse (fun h => h1 (by injection h))
      | _, isFalse h2 => isFalse (fun h => h2 (by injection h))

/-- Decidable equality for object field lists. -/
def JVal.decEqFields : (a b : List (String × JVal)) → Decidable (a = b)
  | [], [] => isTrue rfl
  | [], _ :: _ => isFalse (fun h => List.noConfusion h)
  | _ :: _, [] => isFalse (fun h => List.noConfusion h)
  | (k1, v1) :: xs, (k2, v2) :: ys =>
      if hk : k1 = k2 then
        match JVal.decEq v1 v2, JVal.decEqFields xs ys with
        | isTrue h1, isTrue h2 => isTrue (by rw [hk, h1, h2])
        | isFalse h1, _ =>
            isFalse (fun h => by
              injection h with h3 _
              exact h1 (congrArg Prod.snd h3))
        | _, isFalse h2 => isFalse (fun h => h2 (by injection h))
      else
        isFalse (fun h => by
          injection h with h3 _
          exact hk (congrArg Prod.fst h3))

end

instance : DecidableEq JVal := JVal.decEq

namespace JVal

/-- Python truthiness of a JSON-like value: `None`, `False`, `0`, `""`,
`[]` and `{}` are falsy, everything else truthy. -/
def truthy : JVal → Bool
  | .null => false
  | .bool b => b
  | .num n => n != 0
  | .str s => s != ""
  | .arr l => !l.isEmpty
  | .obj l => !l.isEmpty

end JVal

/-- Decidable equality of `Except` outcomes (for evaluating concrete
runs). -/
instance {ε α : Type} [DecidableEq ε] [DecidableEq α] :
    DecidableEq (Except ε α)
  | .ok a, .ok b =>
      if h : a = b then isTrue (by rw [h]) else
        isFalse (fun hh => h (by injection hh))
  | .ok _, .error _ => isFalse (fun h => Except.noConfusion h)
  | .error _, .ok _ => isFalse (fun h => Except.noConfusion h)
  | .error e, .error e' =>
      if h : e = e' then isTrue (by rw [h]) else
        isFalse (fun hh => h (by injection hh))

/-- Lookup of a key in the field list of a JSON object (first match,
mirroring the unique keys of a Python dict). -/
def lookupField : List (String × JVal) → String → Option JVal
  | [], _ => none
  | (k', v) :: rest, k => if k' = k then some v else lookupField rest k

/-- `v.get(k, default)` in Python: works on dicts, raises
`AttributeError` on any non-dict value. -/
def pyGetD (v : JVal) (k : String) (default : JVal) : Except PyErr JVal :=
  match v with
  | .obj fields => .ok ((lookupField fields k).getD default)
  | _ => .error .attributeError

/-- Data class `RepositoryAuthorCommitsNum`.  The author key is kept as a
`JVal` because the Python code stores whatever value the `name` field
held (normally a string). -/
structure RepositoryAuthorCommitsNum where
  author : JVal
  commits_num : Nat
  deriving DecidableEq

/-- One step of the `author_commits[author_name] += 1` loop over an
insertion-ordered association list (Python 3.7+ dict semantics). -/
def bump : List (JVal × Nat) → JVal → List (JVal × Nat)
  | [], k => [(k, 1)]
  | (k', n) :: rest, k =>
      if k' = k then (k', n + 1) :: rest else (k', n) :: bump rest k

/-- The body of the `for commit in commits` loop of
`_get_repository_commits_count_by_author`:
`if commit.get('commit') and commit['commit'].get('author'):`
then `author_name = commit['commit']['author'].get('name', 'Unknown')`
and `author_commits[author_name] += 1`. -/
def processCommit (acc : List (JVal × Nat)) (commit : JVal) :
    Except PyErr (List (JVal × Nat)) := do
  let c ← pyGetD commit "commit" .null
  if c.truthy then
    let a ← pyGetD c "author" .null
    if a.truthy then
      let name ← pyGetD a "name" (.str "Unknown")
      pure (bump acc name)
    else
      pure acc
  else
    pure acc

/-- The accumulation loop of `_get_repository_commits_count_by_author`. -/
def countLoop (acc : List (JVal × Nat)) : List JVal →
    Except PyErr (List (JVal × Nat))
  | [] => .ok acc
  | commit :: rest => do
      let acc' ← processCommit acc commit
      countLoop acc' rest

/-- `_get_repository_commits_count_by_author` applied to an
already-fetched commit list: reduce by author name, then render the
dict items in insertion order as `RepositoryAuthorCommitsNum` values. -/
def countByAuthor (commits : List JVal) :
    Except PyErr (List RepositoryAuthorCommitsNum) := do
  let author_commits ← countLoop [] commits
  .ok (author_commits.map (fun p => ⟨p.1, p.2⟩))

/-- `_get_repository_commits` given the raw outcome of the underlying
`_make_request` transport-and-decode call: any exception is caught and
converted to `[]`; a non-list decoded body is also converted to `[]`
(`commits if isinstance(commits, list) else []`). -/
def get_repository_commits (fetch : Except PyErr JVal) : List JVal :=
  match fetch with
  | .error _ => []
  | .ok (.arr l) => l
  | .ok _ => []

/-- The per-entity aggregation as observed by `get_repositories`:
`_get_repository_commits_count_by_author` run under
`asyncio.gather(..., return_exceptions=True)` followed by the
`isinstance(commits_result, Exception)` check, which converts any raised
exception into `[]`. -/
def aggregateEntity (fetch : Except PyErr JVal) :
    List RepositoryAuthorCommitsNum :=
  match countByAuthor (get_repository_commits fetch) with
  | .ok l => l
  | .error _ => []

/-- Data class `Repository`.  Fields other than `position` and the
author list are kept as `JVal` because the Python code stores whatever
the listing record held (no conversion is performed). -/
structure Repository where
  name : JVal
  owner : JVal
  position : Nat
  stars : JVal
  watchers : JVal
  forks : JVal
  language : JVal
  authors_commits_num_today : List RepositoryAuthorCommitsNum
  deriving DecidableEq

/-- The intermediate `repositories_data` dictionary built per listing
record inside `get_repositories`. -/
structure RepoData where
  name : JVal
  owner : JVal
  position : Nat
  stars : JVal
  watchers : JVal
  forks : JVal
  language : JVal
  deriving DecidableEq

/-- One iteration of the first loop of `get_repositories`:
`owner = repo_data.get('owner', {}).get('login', '')`,
`name = repo_data.get('name', '')`, then the `repositories_data`
dictionary literal with its `.get` defaults. -/
def buildRepoData (position : Nat) (repo_data : JVal) :
    Except PyErr RepoData := do
  let ownerObj ← pyGetD repo_data "owner" (.obj [])
  let owner ← pyGetD ownerObj "login" (.str "")
  let name ← pyGetD repo_data "name" (.str "")
  let stars ← pyGetD repo_data "stargazers_count" (.num 0)
  let watchers ← pyGetD repo_data "watchers_count" (.num 0)
  let forks ← pyGetD repo_data "forks_count" (.num 0)
  let language ← pyGetD repo_data "language" (.str "Unknown")
  .ok ⟨name, owner, position, stars, watchers, forks, language⟩

/-- The first loop of `get_repositories`, with `enumerate(top_repos, 1)`
supplying 1-based positions. -/
def buildAll (position : Nat) : List JVal → Except PyErr (List RepoData)
  | [] => .ok []
  | repo_data :: rest => do
      let d ← buildRepoData position repo_data
      let ds ← buildAll (position + 1) rest
      .ok (d :: ds)

/-- The final `zip(repositories_data, commits_results)` loop of
`get_repositories`, assembling `Repository` values in catalog order. -/
def zipReports : List RepoData →
    List (List RepositoryAuthorCommitsNum) → List Repository
  | d :: ds, a :: as_ =>
      ⟨d.name, d.owner, d.position, d.stars, d.watchers, d.forks,
        d.language, a⟩ :: zipReports ds as_
  | _, _ => []

/-- `get_repositories(limit)`, parameterised by the outcome of the
one-shot listing call `_get_top_repositories` and by the raw outcome of
the per-entity commit request for each 0-based entity index.  A listing
failure propagates; per-entity outcomes pass through `aggregateEntity`
(which absorbs failures into `[]`). -/
def get_repositories (top : Except PyErr (List JVal))
    (commitFetch : Nat → Except PyErr JVal) :
    Except PyErr (List Repository) := do
  let top_repos ← top
  let repositories_data ← buildAll 1 top_repos
  let commits_results :=
    (List.range top_repos.length).map (fun i => aggregateEntity (commitFetch i))
  .ok (zipReports repositories_data commits_results)

/-- `RateLimiter.__init__`: stores the capacity and an empty admission
log; performs no validation of `max_requests_per_second`. -/
def RateLimiter_init (max_requests_per_second : Int) :
    Except PyErr (Int × List ℚ) :=
  .ok (max_requests_per_second, [])

/-- `asyncio.Semaphore.__init__`: raises `ValueError` when the initial
value is negative, otherwise stores it. -/
def Semaphore_init (value : Int) : Except PyErr Int :=
  if value < 0 then .error .valueError else .ok value

/-- `GithubReposScrapper.__init__`: builds the semaphore (which may
raise `ValueError`) and the rate limiter (which never raises); no other
validation and no network activity occur. -/
def GithubReposScrapper_init (max_concurrent_requests : Int)
    (requests_per_second : Int) : Except PyErr (Int × (Int × List ℚ)) := do
  let sem ← Semaphore_init max_concurrent_requests
  let rl ← RateLimiter_init requests_per_second
  .ok (sem, rl)

/-! ### Rate limiter (`RateLimiter.acquire`)

Timestamps are rationals; `asyncio.sleep` is modelled as exact (the
clock advances by precisely the requested amount, and no time elapses
between the two `datetime.now()` reads other than the sleep). -/

/-- `self.requests = [t for t in self.requests if now - t < timedelta(seconds=1)]`. -/
def pruneLog (now : ℚ) (requests : List ℚ) : List ℚ :=
  requests.filter (fun t => decide (now - t < 1))

/-- One call of `RateLimiter.acquire`, started at time `now`, returning
the updated admission log together with the admission time (the time at
which the call returns).  `self.requests[0]` on an empty log raises
`IndexError`. -/
def acquire (max_requests_per_second : Int) (requests : List ℚ)
    (now : ℚ) : Except PyErr (List ℚ × ℚ) :=
  let reqs := pruneLog now requests
  if max_requests_per_second ≤ (reqs.length : Int) then
    match reqs with
    | [] => .error .indexError
    | oldest :: _ =>
        let sleep_time : ℚ := 1 - (now - oldest)
        let now2 := if 0 < sleep_time then now + sleep_time else now
        let reqs2 := pruneLog now2 reqs
        .ok (reqs2 ++ [now2], now2)
  else
    .ok (reqs ++ [now], now)

/-- A sequence of `acquire` calls serialized by the limiter's lock: the
`k`-th call starts `delays[k]` after the previous call returned
(`delays[k] ≥ 0` models that a later caller cannot start in the past).
Returns the final log, the chronological list of admission times, and
the last return time. -/
def runAcquires (max_requests_per_second : Int) :
    List ℚ → List ℚ → List ℚ → ℚ → Except PyErr (List ℚ × List ℚ × ℚ)
  | [], requests, admitted, lastTime => .ok (requests, admitted, lastTime)
  | d :: rest, requests, admitted, lastTime =>
      match acquire max_requests_per_second requests (lastTime + d) with
      | .error e => .error e
      | .ok (requests', t) =>
          runAcquires max_requests_per_second rest requests' (admitted ++ [t]) t

/-- Number of admissions in the trailing 1-second window ending at `T`
(half-open on the left, matching the strict `now - t < 1` prune). -/
def windowCount (admitted : List ℚ) (T : ℚ) : Nat :=
  (admitted.filter (fun a => decide (T - 1 < a) && decide (a ≤ T))).length

/-! ### Concurrency gate (`_make_request` under the semaphore)

`_make_request` is modelled as a small state machine per task:
`async with self._semaphore` acquires a slot, then
`await self._rate_limiter.acquire()`, then the transport call
`self._session.request(...)`; leaving the `async with` block — on normal
return or on any exception — releases the slot. -/

/-- Program counter of one `_make_request` task. -/
inductive Pc where
  | start
  | hasSlot
  | admitted
  | inTransport
  | finished
  deriving DecidableEq

/-- States in which the task occupies a semaphore slot. -/
def holdsSlot : Pc → Bool
  | .hasSlot => true
  | .admitted => true
  | .inTransport => true
  | _ => false

/-- The "in transport" state. -/
def inTransport : Pc → Bool
  | .inTransport => true
  | _ => false

/-- Global state: semaphore capacity, free slots, and each task's pc. -/
structure GateSys where
  cap : Nat
  avail : Nat
  tasks : List Pc
  deriving DecidableEq

/-- Number of tasks whose pc satisfies `p`. -/
def countP (p : Pc → Bool) (tasks : List Pc) : Nat :=
  (tasks.filter p).length

/-- Interleaving semantics of `n` concurrent `_make_request` calls.
`acquireSem` models `asyncio.Semaphore.acquire` (only possible when a
slot is free); `exitBlock` models leaving the `async with` block from
any point inside it — normal completion of the transport call or an
exception raised at the rate limiter or at the transport — and always
returns the slot. -/
inductive GateStep : GateSys → GateSys → Prop
  | acquireSem (s : GateSys) (i : Nat) (hi : i < s.tasks.length)
      (hpc : s.tasks.get ⟨i, hi⟩ = .start) (hav : 0 < s.avail) :
      GateStep s ⟨s.cap, s.avail - 1, s.tasks.set i .hasSlot⟩
  | rateAdmit (s : GateSys) (i : Nat) (hi : i < s.tasks.length)
      (hpc : s.tasks.get ⟨i, hi⟩ = .hasSlot) :
      GateStep s ⟨s.cap, s.avail, s.tasks.set i .admitted⟩
  | beginTransport (s : GateSys) (i : Nat) (hi : i < s.tasks.length)
      (hpc : s.tasks.get ⟨i, hi⟩ = .admitted) :
      GateStep s ⟨s.cap, s.avail, s.tasks.set i .inTransport⟩
  | exitBlock (s : GateSys) (i : Nat) (hi : i < s.tasks.length)
      (hpc : holdsSlot (s.tasks.get ⟨i, hi⟩) = true) :
      GateStep s ⟨s.cap, s.avail + 1, s.tasks.set i .finished⟩

/-- Initial state: `asyncio.Semaphore(cap)` full, `n` tasks about to
enter `_make_request`. -/
def gateInit (cap n : Nat) : GateSys :=
  ⟨cap, cap, List.replicate n .start⟩

/-- Reachability under arbitrary interleaving. -/
def GateReachable (cap n : Nat) (s : GateSys) : Prop :=
  Relation.ReflTransGen GateStep (gateInit cap n) s

/-! ### Spec-side helpers for stating the aggregation claims -/

/-- The author key that the counting loop uses for one commit event:
`some k` when the event qualifies (truthy `commit` object with truthy
`author` object), `none` when the loop skips it.  (On events where the
Python code would raise, the value is irrelevant: the loop result is an
error there.) -/
def eventKey (commit : JVal) : Option JVal :=
  match commit with
  | .obj fields =>
      match (lookupField fields "commit").getD .null with
      | .obj cfields =>
          if (JVal.obj cfields).truthy then
            match (lookupField cfields "author").getD .null with
            | .obj afields =>
                if (JVal.obj afields).truthy then
                  some ((lookupField afields "name").getD (.str "Unknown"))
                else none
            | _ => none
          else none
      | _ => none
  | _ => none

/-- First-seen accumulation of author keys (Python dict key order). -/
def insertFS (seen : List JVal) (k : JVal) : List JVal :=
  if k ∈ seen then seen else seen ++ [k]

/-! ## Helper lemmas -/

/-- On a record whose extracted owner value is an object,
`buildRepoData` succeeds and every field is the corresponding
`.get` default-lookup. -/
theorem buildRepoData_obj (pos : Nat) (fields ofields : List (String × JVal))
    (ho : (lookupField fields "owner").getD (.obj []) = .obj ofields) :
    buildRepoData pos (.obj fields) =
      .ok ⟨(lookupField fields "name").getD (.str ""),
        (lookupField ofields "login").getD (.str ""), pos,
        (lookupField fields "stargazers_count").getD (.num 0),
        (lookupField fields "watchers_count").getD (.num 0),
        (lookupField fields "forks_count").getD (.num 0),
        (lookupField fields "language").getD (.str "Unknown")⟩ := by
  simp only [buildRepoData, pyGetD, bind, Except.bind, ho]

/-- Whenever `buildRepoData` succeeds, the stored position is the
enumeration position it was given. -/
theorem buildRepoData_position (pos : Nat) (r : JVal) (d : RepoData)
    (h : buildRepoData pos r = .ok d) : d.position = pos := by
  cases r with
  | obj fields =>
      cases ho : (lookupField fields "owner").getD (.obj []) with
      | obj ofields =>
          rw [buildRepoData_obj pos fields ofields ho] at h
          cases h
          rfl
      | null => simp [buildRepoData, pyGetD, bind, Except.bind, ho] at h
      | bool b => simp [buildRepoData, pyGetD, bind, Except.bind, ho] at h
      | num n => simp [buildRepoData, pyGetD, bind, Except.bind, ho] at h
      | str s => simp [buildRepoData, pyGetD, bind, Except.bind, ho] at h
      | arr l => simp [buildRepoData, pyGetD, bind, Except.bind, ho] at h
  | null => simp [buildRepoData, pyGetD, bind, Except.bind] at h
  | bool b => simp [buildRepoData, pyGetD, bind, Except.bind] at h
  | num n => simp [buildRepoData, pyGetD, bind, Except.bind] at h
  | str s => simp [buildRepoData, pyGetD, bind, Except.bind] at h
  | arr l => simp [buildRepoData, pyGetD, bind, Except.bind] at h

/-- A successful `buildAll` run yields one `RepoData` per listing record
and assigns consecutive positions starting at `pos`. -/
theorem buildAll_ok : ∀ (items : List JVal) (pos : Nat) (ds : List RepoData),
    buildAll pos items = .ok ds →
    ds.length = items.length ∧
      ∀ (i : Nat) (hi : i < ds.length), ds[i].position = pos + i := by
  intro items
  induction items with
  | nil =>
      intro pos ds h
      simp only [buildAll] at h
      cases h
      exact ⟨rfl, fun i hi => absurd hi (by simp)⟩
  | cons r rest ih =>
      intro pos ds h
      simp only [buildAll, bind, Except.bind] at h
      cases hb : buildRepoData pos r with
      | error e => rw [hb] at h; exact absurd h (by simp)
      | ok d =>
          rw [hb] at h
          cases hrest : buildAll (pos + 1) rest with
          | error e => rw [hrest] at h; exact absurd h (by simp)
          | ok ds' =>
              rw [hrest] at h
              cases h
              obtain ⟨hlen, hpos⟩ := ih (pos + 1) ds' hrest
              refine ⟨by simp [hlen], ?_⟩
              intro i hi
              cases i with
              | zero => simpa using buildRepoData_position pos r d hb
              | succ i =>
                  have hi' : i < ds'.length := by
                    simpa using Nat.lt_of_succ_lt_succ hi
                  calc (d :: ds')[i + 1].position = ds'[i].position := by
                        simp
                    _ = pos + 1 + i := hpos i hi'
                    _ = pos + (i + 1) := by omega

/-- Length of the assembled report list. -/
theorem zipReports_length : ∀ (ds : List RepoData)
    (as_ : List (List RepositoryAuthorCommitsNum)),
    (zipReports ds as_).length = min ds.length as_.length := by
  intro ds
  induction ds with
  | nil => intro as_; cases as_ <;> simp [zipReports]
  | cons d ds' ih =>
      intro as_
      cases as_ with
      | nil => simp [zipReports]
      | cons a as' => simp [zipReports, ih as']; omega

/-- Elements of the assembled report list: summary fields come from the
`i`-th `RepoData`, the author list from the `i`-th aggregation result. -/
theorem zipReports_getElem : ∀ (ds : List RepoData)
    (as_ : List (List RepositoryAuthorCommitsNum)) (i : Nat)
    (h1 : i < ds.length) (h2 : i < as_.length)
    (hz : i < (zipReports ds as_).length),
    (zipReports ds as_)[i] =
      ⟨ds[i].name, ds[i].owner, ds[i].position, ds[i].stars, ds[i].watchers,
        ds[i].forks, ds[i].language, as_[i]⟩ := by
  intro ds
  induction ds with
  | nil => intro as_ i h1; exact absurd h1 (by simp)
  | cons d ds' ih =>
      intro as_ i h1 h2 hz
      cases as_ with
      | nil => exact absurd h2 (by simp)
      | cons a as' =>
          cases i with
          | zero => simp [zipReports]
          | succ i =>
              have h1' : i < ds'.length := by simpa using Nat.lt_of_succ_lt_succ h1
              have h2' : i < as'.length := by simpa using Nat.lt_of_succ_lt_succ h2
              have hz' : i < (zipReports ds' as').length := by
                simpa [zipReports] using Nat.lt_of_succ_lt_succ hz
              simpa [zipReports] using ih as' i h1' h2' hz'

/-- Inversion of a successful `get_repositories` run on a successful
listing: the intermediate `repositories_data` succeeded and the result
is the order-preserving zip. -/
theorem get_repositories_ok (items : List JVal)
    (cf : Nat → Except PyErr JVal) (repos : List Repository)
    (h : get_repositories (.ok items) cf = .ok repos) :
    ∃ ds, buildAll 1 items = .ok ds ∧
      repos = zipReports ds
        ((List.range items.length).map fun i => aggregateEntity (cf i)) := by
  unfold get_repositories at h
  simp only [bind, Except.bind] at h
  cases hb : buildAll 1 items with
  | error e => rw [hb] at h; exact absurd h (by simp)
  | ok ds =>
      rw [hb] at h
      refine ⟨ds, rfl, ?_⟩
      injection h with h'
      exact h'.symm

/-- Forward evaluation of `get_repositories` on a successful listing
once the `repositories_data` loop is known to succeed. -/
theorem get_repositories_eq (items : List JVal)
    (cf : Nat → Except PyErr JVal) (ds : List RepoData)
    (hb : buildAll 1 items = .ok ds) :
    get_repositories (.ok items) cf =
      .ok (zipReports ds
        ((List.range items.length).map fun i => aggregateEntity (cf i))) := by
  unfold get_repositories
  simp only [bind, Except.bind, hb]

/-- A failed per-entity commit fetch aggregates to the empty author
list (the `except`-to-`[]` conversion in `_get_repository_commits`). -/
theorem aggregateEntity_error (e : PyErr) :
    aggregateEntity (.error e) = [] := rfl

/-- `bump` updates the key sequence exactly as a first-seen insert. -/
theorem bump_fst : ∀ (acc : List (JVal × Nat)) (k : JVal),
    (bump acc k).map Prod.fst = insertFS (acc.map Prod.fst) k := by
  intro acc
  induction acc with
  | nil => intro k; simp [bump, insertFS]
  | cons p rest ih =>
      intro k
      obtain ⟨k', n⟩ := p
      by_cases hk : k' = k
      · simp [bump, insertFS, hk]
      · by_cases hm : k ∈ rest.map Prod.fst
        · simp [bump, insertFS, hk, hm, ih, Ne.symm hk]
        · simp [bump, insertFS, hk, hm, ih, Ne.symm hk]

/-- `bump` adds exactly one to the total count. -/
theorem bump_sum : ∀ (acc : List (JVal × Nat)) (k : JVal),
    ((bump acc k).map Prod.snd).sum = ((acc.map Prod.snd)).sum + 1 := by
  intro acc
  induction acc with
  | nil => intro k; simp [bump]
  | cons p rest ih =>
      intro k
      obtain ⟨k', n⟩ := p
      by_cases hk : k' = k
      · simp [bump, hk]; omega
      · simp [bump, hk, ih]; omega

/-- `bump` preserves strict positivity of every count. -/
theorem bump_pos : ∀ (acc : List (JVal × Nat)) (k : JVal),
    (∀ p ∈ acc, 1 ≤ p.2) → ∀ p ∈ bump acc k, 1 ≤ p.2 := by
  intro acc
  induction acc with
  | nil => intro k _ p hp; simp [bump] at hp; simp [hp]
  | cons q rest ih =>
      intro k hall p hp
      obtain ⟨k', n⟩ := q
      by_cases hk : k' = k
      · simp [bump, hk] at hp
        rcases hp with hp | hp
        · simp [hp]
        · exact hall p (by simp [hp])
      · simp [bump, hk] at hp
        rcases hp with hp | hp
        · have := hall (k', n) (by simp)
          simp at this
          simp [hp]
          omega
        · exact ih k (fun q hq => hall q (by simp [hq])) p hp

/-- First-seen insertion preserves `Nodup`. -/
theorem insertFS_nodup (seen : List JVal) (k : JVal)
    (h : seen.Nodup) : (insertFS seen k).Nodup := by
  unfold insertFS
  split
  · exact h
  · next hk => simp [List.nodup_append, h, hk]

/-- A successful loop body behaves as `eventKey` describes: qualifying
events bump their author key, the rest leave the accumulator alone. -/
theorem processCommit_ok : ∀ (acc : List (JVal × Nat)) (commit : JVal)
    (acc' : List (JVal × Nat)), processCommit acc commit = .ok acc' →
    acc' = (match eventKey commit with
      | some k => bump acc k
      | none => acc) := by
  intro acc commit acc' h
  cases commit with
  | null => simp [processCommit, pyGetD, bind, Except.bind] at h
  | bool b => simp [processCommit, pyGetD, bind, Except.bind] at h
  | num n => simp [processCommit, pyGetD, bind, Except.bind] at h
  | str s => simp [processCommit, pyGetD, bind, Except.bind] at h
  | arr l => simp [processCommit, pyGetD, bind, Except.bind] at h
  | obj fields =>
      simp only [processCommit, pyGetD, bind, Except.bind, pure,
        Except.pure] at h
      simp only [eventKey]
      cases hc : (lookupField fields "commit").getD JVal.null with
      | null =>
          rw [hc] at h
          simp [JVal.truthy] at h
          simp [h]
      | bool b =>
          rw [hc] at h
          cases b with
          | false => simp [JVal.truthy] at h; simp [h]
          | true => simp [JVal.truthy] at h
      | num n =>
          rw [hc] at h
          by_cases hn : n = 0
          · simp [JVal.truthy, hn] at h; simp [h]
          · simp [JVal.truthy, hn] at h
      | str s =>
          rw [hc] at h
          by_cases hs : s = ""
          · simp [JVal.truthy, hs] at h; simp [h]
          · simp [JVal.truthy, hs] at h
      | arr l =>
          rw [hc] at h
          cases l with
          | nil => simp [JVal.truthy] at h; simp [h]
          | cons x xs => simp [JVal.truthy] at h
      | obj cfields =>
          rw [hc] at h
          by_cases ht : (JVal.obj cfields).truthy
          · simp only [ht, if_true] at h ⊢
            cases ha : (lookupField cfields "author").getD JVal.null with
            | null =>
                rw [ha] at h
                simp [JVal.truthy] at h
                simp [h]
            | bool b =>
                rw [ha] at h
                cases b with
                | false => simp [JVal.truthy] at h; simp [h]
                | true => simp [JVal.truthy] at h
            | num n =>
                rw [ha] at h
                by_cases hn : n = 0
                · simp [JVal.truthy, hn] at h; simp [h]
                · simp [JVal.truthy, hn] at h
            | str s =>
                rw [ha] at h
                by_cases hs : s = ""
                · simp [JVal.truthy, hs] at h; simp [h]
                · simp [JVal.truthy, hs] at h
            | arr l =>
                rw [ha] at h
                cases l with
                | nil => simp [JVal.truthy] at h; simp [h]
                | cons x xs => simp [JVal.truthy] at h
            | obj afields =>
                rw [ha] at h
                by_cases ht2 : (JVal.obj afields).truthy
                · simp only [ht2, if_true] at h ⊢
                  injection h with h'
                  exact h'.symm
                · simp only [ht2, if_false] at h ⊢
                  injection h with h'
                  exact h'.symm
          · simp only [ht, if_false] at h ⊢
            injection h with h'
            exact h'.symm

/-- A successful counting loop is the pure fold of `bump` over the
qualifying author keys. -/
theorem countLoop_ok : ∀ (commits : List JVal) (acc accF : List (JVal × Nat)),
    countLoop acc commits = .ok accF →
    accF = (commits.filterMap eventKey).foldl bump acc := by
  intro commits
  induction commits with
  | nil =>
      intro acc accF h
      simp only [countLoop] at h
      cases h
      simp
  | cons c rest ih =>
      intro acc accF h
      simp only [countLoop, bind, Except.bind] at h
      cases hp : processCommit acc c with
      | error e => rw [hp] at h; exact absurd h (by simp)
      | ok acc1 =>
          rw [hp] at h
          have hacc1 := processCommit_ok acc c acc1 hp
          cases he : eventKey c with
          | none =>
              rw [he] at hacc1
              simp only at hacc1
              subst hacc1
              rw [List.filterMap_cons, he]
              exact ih acc1 accF h
          | some k =>
              rw [he] at hacc1
              simp only at hacc1
              subst hacc1
              rw [List.filterMap_cons, he]
              simp only [List.foldl_cons]
              exact ih (bump acc k) accF h

/-- Folding `bump` over keys: the key sequence is the first-seen fold. -/
theorem foldl_bump_fst : ∀ (ks : List JVal) (acc : List (JVal × Nat)),
    ((ks.foldl bump acc).map Prod.fst) = ks.foldl insertFS (acc.map Prod.fst) := by
  intro ks
  induction ks with
  | nil => intro acc; simp
  | cons k ks' ih => intro acc; simp only [List.foldl_cons, ih, bump_fst]

/-- Folding `bump` over keys adds the number of keys to the total. -/
theorem foldl_bump_sum : ∀ (ks : List JVal) (acc : List (JVal × Nat)),
    (((ks.foldl bump acc).map Prod.snd)).sum = ((acc.map Prod.snd)).sum + ks.length := by
  intro ks
  induction ks with
  | nil => intro acc; simp
  | cons k ks' ih =>
      intro acc
      simp only [List.foldl_cons, ih, bump_sum, List.length_cons]
      omega

/-- Folding `bump` preserves strict positivity of every count. -/
theorem foldl_bump_pos : ∀ (ks : List JVal) (acc : List (JVal × Nat)),
    (∀ p ∈ acc, 1 ≤ p.2) → ∀ p ∈ ks.foldl bump acc, 1 ≤ p.2 := by
  intro ks
  induction ks with
  | nil => intro acc h; simpa using h
  | cons k ks' ih =>
      intro acc h
      simp only [List.foldl_cons]
      exact ih (bump acc k) (bump_pos acc k h)

/-- The first-seen fold of keys never repeats a key. -/
theorem foldl_insertFS_nodup : ∀ (ks : List JVal) (seen : List JVal),
    seen.Nodup → (ks.foldl insertFS seen).Nodup := by
  intro ks
  induction ks with
  | nil => intro seen h; simpa using h
  | cons k ks' ih =>
      intro seen h
      simp only [List.foldl_cons]
      exact ih (insertFS seen k) (insertFS_nodup seen k h)

/-- Updating one task's pc changes `countP` by the difference of the
old and new pc's membership in `p`. -/
theorem countP_set : ∀ (tasks : List Pc) (i : Nat) (hi : i < tasks.length)
    (pcNew : Pc) (p : Pc → Bool),
    countP p (tasks.set i pcNew) + (if p tasks[i] then 1 else 0)
      = countP p tasks + (if p pcNew then 1 else 0) := by
  intro tasks
  induction tasks with
  | nil => intro i hi; exact absurd hi (by simp)
  | cons t ts ih =>
      intro i hi pcNew p
      cases i with
      | zero =>
          simp only [List.set_cons_zero, List.getElem_cons_zero, countP,
            List.filter_cons]
          split_ifs <;> simp
      | succ i =>
          have hi' : i < ts.length := by simpa using Nat.lt_of_succ_lt_succ hi
          have := ih i hi' pcNew p
          simp only [List.set_cons_succ, List.getElem_cons_succ, countP,
            List.filter_cons] at *
          split_ifs at * <;> simp at * <;> omega

/-- No task in the all-`start` initial pool holds a slot. -/
theorem countP_holdsSlot_replicate_start (n : Nat) :
    countP holdsSlot (List.replicate n .start) = 0 := by
  induction n with
  | zero => rfl
  | succ n ih =>
      simp only [List.replicate_succ, countP, List.filter_cons] at *
      simp [holdsSlot, ih]

/-- One step preserves the semaphore accounting. -/
theorem gate_step_invariant (cap : Nat) (s s' : GateSys)
    (hstep : GateStep s s') (ihc : s.cap = cap)
    (ihinv : s.avail + countP holdsSlot s.tasks = cap) :
    s'.cap = cap ∧ s'.avail + countP holdsSlot s'.tasks = cap := by
  cases hstep with
  | acquireSem i hi hpc hav =>
      refine ⟨ihc, ?_⟩
      have hcount := countP_set s.tasks i hi .hasSlot holdsSlot
      rw [List.get_eq_getElem] at hpc
      rw [hpc] at hcount
      simp [holdsSlot] at hcount
      show s.avail - 1 + countP holdsSlot (s.tasks.set i Pc.hasSlot) = cap
      omega
  | rateAdmit i hi hpc =>
      refine ⟨ihc, ?_⟩
      have hcount := countP_set s.tasks i hi .admitted holdsSlot
      rw [List.get_eq_getElem] at hpc
      rw [hpc] at hcount
      simp [holdsSlot] at hcount
      show s.avail + countP holdsSlot (s.tasks.set i Pc.admitted) = cap
      omega
  | beginTransport i hi hpc =>
      refine ⟨ihc, ?_⟩
      have hcount := countP_set s.tasks i hi .inTransport holdsSlot
      rw [List.get_eq_getElem] at hpc
      rw [hpc] at hcount
      simp [holdsSlot] at hcount
      show s.avail + countP holdsSlot (s.tasks.set i Pc.inTransport) = cap
      omega
  | exitBlock i hi hpc =>
      refine ⟨ihc, ?_⟩
      have hcount := countP_set s.tasks i hi .finished holdsSlot
      rw [List.get_eq_getElem] at hpc
      rw [hpc] at hcount
      simp [holdsSlot] at hcount
      show s.avail + 1 + countP holdsSlot (s.tasks.set i Pc.finished) = cap
      omega

/-- Semaphore accounting invariant: in every reachable state the free
slots plus the slots held by tasks equal the capacity. -/
theorem gate_invariant (cap n : Nat) (s : GateSys)
    (h : GateReachable cap n s) :
    s.cap = cap ∧ s.avail + countP holdsSlot s.tasks = cap := by
  induction h with
  | refl => simpa [gateInit] using countP_holdsSlot_replicate_start n
  | tail hsteps hstep ih =>
      exact gate_step_invariant cap _ _ hstep ih.1 ih.2

/-- Re-pruning at a later time supersedes an earlier prune. -/
theorem pruneLog_pruneLog (l : List ℚ) (r now : ℚ) (h : r ≤ now) :
    pruneLog now (pruneLog r l) = pruneLog now l := by
  unfold pruneLog
  rw [List.filter_filter]
  apply List.filter_congr
  intro a _
  by_cases hn : now - a < 1
  · have hr2 : r - a < 1 := by linarith
    simp [hn, hr2]
  · simp [hn]

/-- Admissions in the trailing window ending at `T` are no more numerous
than the entries younger than one second relative to any `t0 ≤ T`. -/
theorem window_filter_le_prune (l : List ℚ) (T t0 : ℚ) (h : t0 ≤ T) :
    (l.filter (fun a => decide (T - 1 < a) && decide (a ≤ T))).length
      ≤ (pruneLog t0 l).length := by
  unfold pruneLog
  refine (List.monotone_filter_right l ?_).length_le
  intro a hpa
  simp only [Bool.and_eq_true, decide_eq_true_eq] at hpa
  have : t0 - a < 1 := by
    obtain ⟨h1, h2⟩ := hpa
    linarith
  simpa using this

/-- `acquire` in the uncontended branch: append the current time. -/
theorem acquire_eq_nowait (maxRPS : Int) (requests : List ℚ) (now : ℚ)
    (hbr : ¬maxRPS ≤ ((pruneLog now requests).length : Int)) :
    acquire maxRPS requests now
      = .ok (pruneLog now requests ++ [now], now) := by
  simp only [acquire]
  rw [if_neg hbr]

/-- `acquire` in the contended branch with a strictly positive sleep. -/
theorem acquire_eq_wait (maxRPS : Int) (requests : List ℚ)
    (now oldest : ℚ) (tail : List ℚ)
    (hpr : pruneLog now requests = oldest :: tail)
    (hbr : maxRPS ≤ ((pruneLog now requests).length : Int))
    (hsleep : 0 < 1 - (now - oldest)) :
    acquire maxRPS requests now
      = .ok (pruneLog (now + (1 - (now - oldest))) (oldest :: tail)
          ++ [now + (1 - (now - oldest))], now + (1 - (now - oldest))) := by
  simp only [acquire]
  rw [if_pos hbr, hpr]
  simp only [if_pos hsleep]

/-- Single-step preservation of the limiter invariant: starting from an
admission history `admitted` bounded by the last return time `r`, whose
every trailing 1-second window holds at most `maxRPS` admissions, and a
log equal to the pruned history, an `acquire` at any time `now ≥ r`
returns an admission time `t ≥ now`, the correspondingly pruned new
history as the new log, and a history still satisfying the window
bound. -/
theorem acquire_step (maxRPS : Int) (hmax : 1 ≤ maxRPS)
    (admitted : List ℚ) (r now : ℚ) (hr : r ≤ now)
    (hub : ∀ a ∈ admitted, a ≤ r)
    (hwin : ∀ T : ℚ, ((admitted.filter
        (fun a => decide (T - 1 < a) && decide (a ≤ T))).length : Int) ≤ maxRPS) :
    ∃ t, now ≤ t ∧
      acquire maxRPS (pruneLog r admitted) now
        = .ok (pruneLog t (admitted ++ [t]), t) ∧
      (∀ a ∈ admitted ++ [t], a ≤ t) ∧
      (∀ T : ℚ, (((admitted ++ [t]).filter
          (fun a => decide (T - 1 < a) && decide (a ≤ T))).length : Int) ≤ maxRPS) := by
  have hub_now : ∀ a ∈ admitted, a ≤ now := fun a ha => le_trans (hub a ha) hr
  have hprune : pruneLog now (pruneLog r admitted) = pruneLog now admitted :=
    pruneLog_pruneLog admitted r now hr
  have hwin_now_eq :
      admitted.filter (fun a => decide (now - 1 < a) && decide (a ≤ now))
        = pruneLog now admitted := by
    unfold pruneLog
    apply List.filter_congr
    intro a ha
    have h1 := hub_now a ha
    by_cases h2 : now - a < 1
    · have h3 : now - 1 < a := by linarith
      simp [h2, h3, h1]
    · have h3 : ¬(now - 1 < a) := by linarith
      simp [h2, h3]
  have hlen_now : (((pruneLog now admitted)).length : Int) ≤ maxRPS := by
    rw [← hwin_now_eq]; exact hwin now
  by_cases hbr : maxRPS ≤ (((pruneLog now admitted)).length : Int)
  · -- contended branch: sleep until the oldest entry ages out
    cases hpr : pruneLog now admitted with
    | nil =>
        rw [hpr] at hbr
        simp at hbr
        omega
    | cons oldest tail =>
        have hold_mem : oldest ∈ pruneLog now admitted := by rw [hpr]; simp
        have hold_lt : now - oldest < 1 := by
          have := (List.mem_filter.mp hold_mem).2
          simpa using this
        have hsleep : 0 < 1 - (now - oldest) := by linarith
        have hnoweq : now + (1 - (now - oldest)) = oldest + 1 := by ring
        have ht : now ≤ oldest + 1 := by linarith
        have hacq : acquire maxRPS (pruneLog r admitted) now
            = .ok (pruneLog (oldest + 1) (oldest :: tail) ++ [oldest + 1],
                oldest + 1) := by
          have hcall := acquire_eq_wait maxRPS (pruneLog r admitted) now oldest
            tail (hprune.trans hpr) (by rw [hprune]; exact hbr) hsleep
          rw [hnoweq] at hcall
          exact hcall
        have hshape : pruneLog (oldest + 1) (oldest :: tail) ++ [oldest + 1]
            = pruneLog (oldest + 1) (admitted ++ [oldest + 1]) := by
          rw [← hpr, pruneLog_pruneLog admitted now (oldest + 1) ht]
          unfold pruneLog
          rw [List.filter_append]
          simp
        have hdrop : pruneLog (oldest + 1) admitted
            = tail.filter (fun t => decide (oldest + 1 - t < 1)) := by
          rw [← pruneLog_pruneLog admitted now (oldest + 1) ht, hpr]
          unfold pruneLog
          rw [List.filter_cons]
          have hone : oldest + 1 - oldest = 1 := by ring
          have hno : ¬(oldest + 1 - oldest < 1) := by rw [hone]; exact lt_irrefl 1
          simp [hno]
        have htail_len : (pruneLog (oldest + 1) admitted).length ≤ tail.length := by
          rw [hdrop]; exact List.length_filter_le _ tail
        have hplen : (((oldest :: tail).length : Nat) : Int) ≤ maxRPS := by
          rw [← hpr]; exact hlen_now
        refine ⟨oldest + 1, ht, by rw [hacq, hshape], ?_, ?_⟩
        · intro a ha
          rcases List.mem_append.mp ha with h | h
          · have := hub_now a h; linarith
          · simp at h; simp [h]
        · intro T
          rw [List.filter_append]
          by_cases hT : T - 1 < oldest + 1 ∧ oldest + 1 ≤ T
          · have hsingle : [oldest + 1].filter
                (fun a => decide (T - 1 < a) && decide (a ≤ T)) = [oldest + 1] := by
              simp [hT.1, hT.2]
            rw [hsingle]
            have hmono2 := window_filter_le_prune admitted T (oldest + 1) hT.2
            have hchain : (admitted.filter
                (fun a => decide (T - 1 < a) && decide (a ≤ T))).length
                ≤ tail.length := le_trans hmono2 htail_len
            have hplen2 : ((tail.length : Int)) + 1 ≤ maxRPS := by
              have hlcons : ((oldest :: tail).length : Int)
                  = (tail.length : Int) + 1 := by simp
              omega
            rw [List.length_append]
            have hlone : (([oldest + 1] : List ℚ).length) = 1 := rfl
            rw [hlone]
            omega
          · have hsingle : [oldest + 1].filter
                (fun a => decide (T - 1 < a) && decide (a ≤ T)) = [] := by
              by_cases h1 : T - 1 < oldest + 1
              · have h2 : ¬(oldest + 1 ≤ T) := fun hc => hT ⟨h1, hc⟩
                simp [h1, h2]
              · simp [h1]
            rw [hsingle]
            simpa using hwin T
  · -- uncontended branch: admit immediately at `now`
    have hacq : acquire maxRPS (pruneLog r admitted) now
        = .ok (pruneLog now admitted ++ [now], now) := by
      have hcall := acquire_eq_nowait maxRPS (pruneLog r admitted) now
        (by rw [hprune]; exact hbr)
      rw [hprune] at hcall
      exact hcall
    have hshape : pruneLog now admitted ++ [now]
        = pruneLog now (admitted ++ [now]) := by
      unfold pruneLog
      rw [List.filter_append]
      simp
    refine ⟨now, le_refl now, by rw [hacq, hshape], ?_, ?_⟩
    · intro a ha
      rcases List.mem_append.mp ha with h | h
      · exact hub_now a h
      · simp at h; simp [h]
    · intro T
      rw [List.filter_append]
      by_cases hT : T - 1 < now ∧ now ≤ T
      · have hsingle : [now].filter
            (fun a => decide (T - 1 < a) && decide (a ≤ T)) = [now] := by
          simp [hT.1, hT.2]
        rw [hsingle]
        have hmono2 := window_filter_le_prune admitted T now hT.2
        rw [List.length_append]
        have hlone : (([now] : List ℚ).length) = 1 := rfl
        rw [hlone]
        omega
      · have hsingle : [now].filter
            (fun a => decide (T - 1 < a) && decide (a ≤ T)) = [] := by
          by_cases h1 : T - 1 < now
          · have h2 : ¬(now ≤ T) := fun hc => hT ⟨h1, hc⟩
            simp [h1, h2]
          · simp [h1]
        rw [hsingle]
        simpa using hwin T

/-- One serialized call unfolds `runAcquires` by its outcome. -/
theorem runAcquires_cons_ok (maxRPS : Int) (requests admitted : List ℚ)
    (lastTime d : ℚ) (rest : List ℚ) (requests' : List ℚ) (t : ℚ)
    (hacq : acquire maxRPS requests (lastTime + d) = .ok (requests', t)) :
    runAcquires maxRPS (d :: rest) requests admitted lastTime
      = runAcquires maxRPS rest requests' (admitted ++ [t]) t := by
  simp only [runAcquires, hacq]

/-- Invariant propagation along a whole serialized call sequence. -/
theorem runAcquires_inv (maxRPS : Int) (hmax : 1 ≤ maxRPS) :
    ∀ (delays : List ℚ) (admitted : List ℚ) (r : ℚ),
      (∀ d ∈ delays, 0 ≤ d) →
      (∀ a ∈ admitted, a ≤ r) →
      (∀ T : ℚ, ((admitted.filter
        (fun a => decide (T - 1 < a) && decide (a ≤ T))).length : Int) ≤ maxRPS) →
      ∀ (requests finalAdmitted : List ℚ) (lastTime : ℚ),
        runAcquires maxRPS delays (pruneLog r admitted) admitted r
          = .ok (requests, finalAdmitted, lastTime) →
        ∀ T : ℚ, ((finalAdmitted.filter
          (fun a => decide (T - 1 < a) && decide (a ≤ T))).length : Int) ≤ maxRPS := by
  intro delays
  induction delays with
  | nil =>
      intro admitted r hd hub hwin requests finalAdmitted lastTime hrun T
      simp only [runAcquires] at hrun
      cases hrun
      exact hwin T
  | cons d rest ih =>
      intro admitted r hd hub hwin requests finalAdmitted lastTime hrun T
      have hd0 : (0:ℚ) ≤ d := hd d (by simp)
      have hrle : r ≤ r + d := by linarith
      obtain ⟨t, hnt, hacq, hub', hwin'⟩ :=
        acquire_step maxRPS hmax admitted r (r + d) hrle hub hwin
      rw [runAcquires_cons_ok maxRPS (pruneLog r admitted) admitted r d rest
        (pruneLog t (admitted ++ [t])) t hacq] at hrun
      exact ih (admitted ++ [t]) t (fun d' hd' => hd d' (by simp [hd']))
        hub' hwin' requests finalAdmitted lastTime hrun T

/-- Inversion of a successful `countByAuthor`. -/
theorem countByAuthor_ok (commits : List JVal)
    (l : List RepositoryAuthorCommitsNum)
    (h : countByAuthor commits = .ok l) :
    l = ((commits.filterMap eventKey).foldl bump []).map fun p => ⟨p.1, p.2⟩ := by
  simp only [countByAuthor, bind, Except.bind] at h
  cases hc : countLoop [] commits with
  | error e => rw [hc] at h; exact absurd h (by simp)
  | ok ac =>
      rw [hc] at h
      injection h with h'
      rw [← h', countLoop_ok commits [] ac hc]

/-! ## Claim theorems -/

/-- C1: with a successful listing, failing one entity's commit fetch
(index `j`) while every other entity's fetch outcome is unchanged still
yields a batch of one report per listed entity; the failed entity's
author list is `[]` (present, never absent) and every other report is
identical to the run without the failure.  The failure is absorbed
inside the aggregation and never propagates out of `get_repositories`. -/
theorem claim1_partial_failure_containment (items : List JVal)
    (f g : Nat → Except PyErr JVal) (j : Nat) (e : PyErr)
    (hagree : ∀ i, i ≠ j → f i = g i) (hfail : f j = .error e)
    (repos : List Repository)
    (hg : get_repositories (.ok items) g = .ok repos) :
    ∃ repos', get_repositories (.ok items) f = .ok repos' ∧
      repos'.length = items.length ∧ repos.length = items.length ∧
      (∀ hj : j < repos'.length, repos'[j].authors_commits_num_today = []) ∧
      (∀ (i : Nat) (hi : i < repos'.length) (hi' : i < repos.length),
        i ≠ j → repos'[i] = repos[i]) := by
  obtain ⟨ds, hb, hrepos⟩ := get_repositories_ok items g repos hg
  subst hrepos
  obtain ⟨hdslen, _⟩ := buildAll_ok items 1 ds hb
  have hflen : (zipReports ds
      ((List.range items.length).map fun i => aggregateEntity (f i))).length
      = items.length := by
    rw [zipReports_length, hdslen]; simp
  have hglen : (zipReports ds
      ((List.range items.length).map fun i => aggregateEntity (g i))).length
      = items.length := by
    rw [zipReports_length, hdslen]; simp
  refine ⟨_, get_repositories_eq items f ds hb, hflen, hglen, ?_, ?_⟩
  · intro hj
    have h1 : j < ds.length := by omega
    have h2 : j < ((List.range items.length).map
        fun i => aggregateEntity (f i)).length := by
      simp only [List.length_map, List.length_range]; omega
    rw [zipReports_getElem ds _ j h1 h2 hj]
    simp [List.getElem_map, List.getElem_range, hfail, aggregateEntity_error]
  · intro i hi hi' hij
    have h1 : i < ds.length := by omega
    have h2 : i < ((List.range items.length).map
        fun i => aggregateEntity (f i)).length := by
      simp only [List.length_map, List.length_range]; omega
    have h3 : i < ((List.range items.length).map
        fun i => aggregateEntity (g i)).length := by
      simp only [List.length_map, List.length_range]; omega
    rw [zipReports_getElem ds _ i h1 h2 hi,
      zipReports_getElem ds _ i h1 h3 hi']
    simp [List.getElem_map, List.getElem_range, hagree i hij]

/-- Witness for C1: two listed entities; entity 0's commit fetch fails,
entity 1's succeeds with one commit by alice.  The batch still has one
report per entity. -/
theorem claim1_partial_failure_containment_witness :
    Except.map List.length
      (get_repositories (.ok [JVal.obj [], JVal.obj []])
        (fun i => if i = 0 then .error .requestFailed
          else .ok (.arr [JVal.obj [("commit",
            JVal.obj [("author", JVal.obj [("name", JVal.str "alice")])])]])))
      = .ok 2 := by
  obtain ⟨repos', hok, hlen, _, _, _⟩ :=
    claim1_partial_failure_containment [JVal.obj [], JVal.obj []]
      (fun i => if i = 0 then .error .requestFailed
        else .ok (.arr [JVal.obj [("commit",
          JVal.obj [("author", JVal.obj [("name", JVal.str "alice")])])]]))
      (fun _ => .ok (.arr [JVal.obj [("commit",
          JVal.obj [("author", JVal.obj [("name", JVal.str "alice")])])]]))
      0 .requestFailed
      (fun i hi => by simp [hi])
      (by simp)
      _ rfl
  rw [hok]
  simpa [Except.map] using hlen

/-- C2: for every successful `get_repositories` run the batch has one
report per listed entity, the `i`-th report's `position` equals the
1-based position `i + 1` of that entity in the listing (server order,
no re-sort), and `position` is strictly increasing in `i`.  Completion
order of the aggregation tasks cannot influence this: the result is the
order-preserving zip of `repositories_data` with the per-index
aggregation outcomes. -/
theorem claim2_order_preservation (items : List JVal)
    (cf : Nat → Except PyErr JVal) (repos : List Repository)
    (h : get_repositories (.ok items) cf = .ok repos) :
    repos.length = items.length ∧
      (∀ (i : Nat) (hi : i < repos.length), repos[i].position = i + 1) ∧
      ∀ (i j : Nat) (hi : i < repos.length) (hj : j < repos.length),
        i < j → repos[i].position < repos[j].position := by
  obtain ⟨ds, hb, hrepos⟩ := get_repositories_ok items cf repos h
  obtain ⟨hlen, hposall⟩ := buildAll_ok items 1 ds hb
  subst hrepos
  have hmaplen :
      ((List.range items.length).map fun i => aggregateEntity (cf i)).length
        = items.length := by simp
  have hzlen : (zipReports ds
      ((List.range items.length).map fun i => aggregateEntity (cf i))).length
      = items.length := by
    rw [zipReports_length, hlen, hmaplen]; simp
  have hpos : ∀ (i : Nat)
      (hi : i < (zipReports ds
        ((List.range items.length).map fun i => aggregateEntity (cf i))).length),
      (zipReports ds
        ((List.range items.length).map fun i => aggregateEntity (cf i)))[i].position
        = i + 1 := by
    intro i hi
    have h1 : i < ds.length := by omega
    have h2 : i < ((List.range items.length).map
        fun i => aggregateEntity (cf i)).length := by omega
    rw [zipReports_getElem ds _ i h1 h2 hi]
    have := hposall i h1
    simpa [Nat.add_comm] using this
  refine ⟨hzlen, hpos, ?_⟩
  intro i j hi hj hij
  rw [hpos i hi, hpos j hj]
  omega

/-- Witness for C2 on a concrete two-entity listing. -/
theorem claim2_order_preservation_witness :
    ([⟨JVal.str "", JVal.str "", 1, JVal.num 0, JVal.num 0, JVal.num 0,
        JVal.str "Unknown", []⟩,
      ⟨JVal.str "", JVal.str "", 2, JVal.num 0, JVal.num 0, JVal.num 0,
        JVal.str "Unknown", []⟩] : List Repository).length = 2 ∧
    (([⟨JVal.str "", JVal.str "", 1, JVal.num 0, JVal.num 0, JVal.num 0,
        JVal.str "Unknown", []⟩,
      ⟨JVal.str "", JVal.str "", 2, JVal.num 0, JVal.num 0, JVal.num 0,
        JVal.str "Unknown", []⟩] : List Repository).get
        ⟨0, by decide⟩).position = 1 := by
  have h := claim2_order_preservation [JVal.obj [], JVal.obj []]
    (fun _ => .ok (.arr []))
    [⟨JVal.str "", JVal.str "", 1, JVal.num 0, JVal.num 0, JVal.num 0,
        JVal.str "Unknown", []⟩,
      ⟨JVal.str "", JVal.str "", 2, JVal.num 0, JVal.num 0, JVal.num 0,
        JVal.str "Unknown", []⟩] rfl
  refine ⟨h.1, ?_⟩
  simp [List.get_eq_getElem]

/-- C3, counterexample to "this is the only path by which run surfaces
an error": here the listing call SUCCEEDS, yet `get_repositories`
raises — the first record's `owner` field is present but `null`, so
`repo_data.get('owner', {}).get('login', '')` calls `.get` on `None`
and raises `AttributeError` out of `run`. -/
theorem claim3_counterexample :
    get_repositories
      (.ok [JVal.obj [("owner", JVal.null)], JVal.obj []])
      (fun _ => .ok (.arr [])) = .error .attributeError := rfl

/-- C3 as amended: if the one-shot listing call fails, the failure
propagates out of `get_repositories` unchanged, and no per-entity
aggregation is consulted (the result is the same for every possible
per-entity commit-fetch behaviour `cf`). -/
theorem claim3_amended_catalog_failure (e : PyErr)
    (cf : Nat → Except PyErr JVal) :
    get_repositories (.error e) cf = .error e := rfl

/-- C7, counterexample: a listing record whose `language` field is
present but `null` produces a summary whose `language` is `null`, not
the sentinel `"Unknown"` — `repo_data.get('language', 'Unknown')` only
defaults when the key is absent. -/
theorem claim7_counterexample :
    get_repositories (.ok [JVal.obj [("language", JVal.null)]])
        (fun _ => .ok (.arr []))
      = .ok [⟨JVal.str "", JVal.str "", 1, JVal.num 0, JVal.num 0,
          JVal.num 0, JVal.null, []⟩] :=
  rfl

/-- C7 as amended: a record with an ABSENT `language` key is normalized
to `"Unknown"`, while a `language` key present with value `null` is
passed through as `null` (not normalized). -/
theorem claim7_amended_language (fields : List (String × JVal))
    (pos : Nat) (d : RepoData)
    (h : buildRepoData pos (.obj fields) = .ok d) :
    (lookupField fields "language" = none → d.language = .str "Unknown") ∧
    (lookupField fields "language" = some .null → d.language = .null) := by
  cases ho : (lookupField fields "owner").getD (.obj []) with
  | obj ofields =>
      rw [buildRepoData_obj pos fields ofields ho] at h
      cases h
      constructor
      · intro hl; simp [hl]
      · intro hl; simp [hl]
  | null => simp [buildRepoData, pyGetD, bind, Except.bind, ho] at h
  | bool b => simp [buildRepoData, pyGetD, bind, Except.bind, ho] at h
  | num n => simp [buildRepoData, pyGetD, bind, Except.bind, ho] at h
  | str s => simp [buildRepoData, pyGetD, bind, Except.bind, ho] at h
  | arr l => simp [buildRepoData, pyGetD, bind, Except.bind, ho] at h

/-- Witness for the amended C7 on a concrete record without a
`language` key. -/
theorem claim7_amended_language_witness :
    (⟨JVal.str "", JVal.str "", 1, JVal.num 0, JVal.num 0, JVal.num 0,
        JVal.str "Unknown"⟩ : RepoData).language = JVal.str "Unknown" :=
  (claim7_amended_language [] 1 _ rfl).1 rfl

/-- C8, counterexample: an `owner` field that is present but `null` is
NOT normalized to the empty string — the catalog fetch raises
`AttributeError` (from `.get` on `None`) instead of producing a
summary. -/
theorem claim8_counterexample :
    buildRepoData 1 (JVal.obj [("owner", JVal.null)])
      = .error .attributeError := rfl

/-- C8 as amended, in three parts.  (a) A record whose `owner` key is
ABSENT always produces a summary with owner normalized to the empty
string.  (b) In every summary the fetch produces, an absent `name` key
is normalized to the empty string, and an absent `owner` key to the
empty string.  (c) Whether the record produces a summary depends only
on its owner value being a dict, never on the `name` key: whenever the
extracted owner value is an object, the fetch succeeds with every field
given by its `.get` default.  (A record whose owner value is not a dict
— e.g. present but `null` — fails regardless of `name`; that is the
counterexample.) -/
theorem claim8_amended_absent_fields (fields : List (String × JVal))
    (pos : Nat) :
    (lookupField fields "owner" = none →
      buildRepoData pos (.obj fields) =
        .ok ⟨(lookupField fields "name").getD (.str ""), JVal.str "", pos,
          (lookupField fields "stargazers_count").getD (.num 0),
          (lookupField fields "watchers_count").getD (.num 0),
          (lookupField fields "forks_count").getD (.num 0),
          (lookupField fields "language").getD (.str "Unknown")⟩) ∧
    (∀ d : RepoData, buildRepoData pos (.obj fields) = .ok d →
      (lookupField fields "name" = none → d.name = JVal.str "") ∧
      (lookupField fields "owner" = none → d.owner = JVal.str "")) ∧
    (∀ ofields : List (String × JVal),
      (lookupField fields "owner").getD (.obj []) = .obj ofields →
      buildRepoData pos (.obj fields) =
        .ok ⟨(lookupField fields "name").getD (.str ""),
          (lookupField ofields "login").getD (.str ""), pos,
          (lookupField fields "stargazers_count").getD (.num 0),
          (lookupField fields "watchers_count").getD (.num 0),
          (lookupField fields "forks_count").getD (.num 0),
          (lookupField fields "language").getD (.str "Unknown")⟩) := by
  refine ⟨?_, ?_, ?_⟩
  · intro howner
    have ho : (lookupField fields "owner").getD (.obj []) = .obj [] := by
      simp [howner]
    exact buildRepoData_obj pos fields [] ho
  · intro d h
    cases ho : (lookupField fields "owner").getD (.obj []) with
    | obj ofields =>
        rw [buildRepoData_obj pos fields ofields ho] at h
        cases h
        constructor
        · intro hn; simp [hn]
        · intro howner
          rw [howner] at ho
          injection ho with ho'
          subst ho'
          rfl
    | null => simp [buildRepoData, pyGetD, bind, Except.bind, ho] at h
    | bool b => simp [buildRepoData, pyGetD, bind, Except.bind, ho] at h
    | num n => simp [buildRepoData, pyGetD, bind, Except.bind, ho] at h
    | str s => simp [buildRepoData, pyGetD, bind, Except.bind, ho] at h
    | arr l => simp [buildRepoData, pyGetD, bind, Except.bind, ho] at h
  · intro ofields ho
    exact buildRepoData_obj pos fields ofields ho

/-- Witness for the amended C8 on a concrete record with neither
`owner` nor `name` (part a and the name clause of part b), and on a
record with an owner object but no `name` key (part c plus the name
clause of part b: name absent, owner present, summary produced with
name normalized). -/
theorem claim8_amended_absent_fields_witness :
    buildRepoData 1 (JVal.obj [("language", JVal.str "Go")])
      = .ok ⟨JVal.str "", JVal.str "", 1, JVal.num 0, JVal.num 0,
          JVal.num 0, JVal.str "Go"⟩ ∧
    buildRepoData 1 (JVal.obj [("owner",
        JVal.obj [("login", JVal.str "alice")])])
      = .ok ⟨JVal.str "", JVal.str "alice", 1, JVal.num 0, JVal.num 0,
          JVal.num 0, JVal.str "Unknown"⟩ ∧
    (⟨JVal.str "", JVal.str "alice", 1, JVal.num 0, JVal.num 0,
        JVal.num 0, JVal.str "Unknown"⟩ : RepoData).name = JVal.str "" := by
  have h1 := claim8_amended_absent_fields [("language", JVal.str "Go")] 1
  have h2 := claim8_amended_absent_fields
    [("owner", JVal.obj [("login", JVal.str "alice")])] 1
  refine ⟨h1.1 rfl, h2.2.2 [("login", JVal.str "alice")] rfl, ?_⟩
  exact (h2.2.1 ⟨JVal.str "", JVal.str "alice", 1, JVal.num 0, JVal.num 0,
    JVal.num 0, JVal.str "Unknown"⟩
    (h2.2.2 [("login", JVal.str "alice")] rfl)).1 rfl

/-- C4: for every serialized sequence of `RateLimiter.acquire` calls
(each call starting no earlier than the previous one returned, with
exact sleeps), every trailing 1-second window `(T-1, T]` contains at
most `max_requests_per_second` admissions.  The embedded `acquire`
follows the source algorithm: prune entries older than 1 second, and if
the pruned count reaches the cap, sleep `1.0 - (now - oldest)`, re-prune
at the new time, then append the new admission timestamp. -/
theorem claim4_sliding_window_rate (maxRPS : Int) (hmax : 1 ≤ maxRPS)
    (start : ℚ) (delays : List ℚ) (hd : ∀ d ∈ delays, 0 ≤ d)
    (requests admitted : List ℚ) (lastTime : ℚ)
    (hrun : runAcquires maxRPS delays [] [] start
      = .ok (requests, admitted, lastTime)) (T : ℚ) :
    ((admitted.filter
      (fun a => decide (T - 1 < a) && decide (a ≤ T))).length : Int) ≤ maxRPS := by
  refine runAcquires_inv maxRPS hmax delays [] start hd (by simp) ?_
    requests admitted lastTime hrun T
  intro T'
  simp
  omega

/-- Witness for C4: the spec's concrete scenario with
`requests_per_second = 2` and three back-to-back calls at t = 0 — the
first two admit at 0, the third at 1, and the window ending at `T = 1`
holds at most 2 admissions. -/
theorem claim4_sliding_window_rate_witness :
    ((([0, 0, 1] : List ℚ).filter
      (fun a => decide ((1:ℚ) - 1 < a) && decide (a ≤ (1:ℚ)))).length : Int)
      ≤ 2 := by
  refine claim4_sliding_window_rate 2 (by norm_num) 0 [0, 0, 0] ?_ [1]
    [0, 0, 1] 1 ?_ 1
  · intro d hd
    simp at hd
    subst hd
    norm_num
  · norm_num [runAcquires, acquire, pruneLog]

/-- C5: under arbitrary interleaving of any number of `_make_request`
tasks, no reachable state has more than `max_concurrent_requests` tasks
in the transport call simultaneously.  The step relation itself encodes
that a task enters the rate limiter and the transport only while
holding a semaphore slot (acquired before both), and that the slot is
released on every exit path, including failure. -/
theorem claim5_concurrency_bound (cap n : Nat) (s : GateSys)
    (h : GateReachable cap n s) :
    countP inTransport s.tasks ≤ cap := by
  obtain ⟨-, hinv⟩ := gate_invariant cap n s h
  have hmono : countP inTransport s.tasks ≤ countP holdsSlot s.tasks := by
    refine (List.monotone_filter_right s.tasks ?_).length_le
    intro pc hpc
    cases pc <;> simp [inTransport, holdsSlot] at hpc ⊢
  omega

/-- Witness for C5: capacity 1, two tasks; one task walks to the
transport state, and the in-transport count in the reached state is
bounded by 1. -/
theorem claim5_concurrency_bound_witness :
    countP inTransport [Pc.inTransport, Pc.start] ≤ 1 := by
  have h1 : GateStep (gateInit 1 2) ⟨1, 0, [Pc.hasSlot, Pc.start]⟩ :=
    GateStep.acquireSem (gateInit 1 2) 0 (by decide) (by decide) (by decide)
  have h2 : GateStep ⟨1, 0, [Pc.hasSlot, Pc.start]⟩
      ⟨1, 0, [Pc.admitted, Pc.start]⟩ :=
    GateStep.rateAdmit ⟨1, 0, [Pc.hasSlot, Pc.start]⟩ 0 (by decide) (by decide)
  have h3 : GateStep ⟨1, 0, [Pc.admitted, Pc.start]⟩
      ⟨1, 0, [Pc.inTransport, Pc.start]⟩ :=
    GateStep.beginTransport ⟨1, 0, [Pc.admitted, Pc.start]⟩ 0 (by decide)
      (by decide)
  have hreach : GateReachable 1 2 ⟨1, 0, [Pc.inTransport, Pc.start]⟩ :=
    Relation.ReflTransGen.tail (Relation.ReflTransGen.tail
      (Relation.ReflTransGen.tail Relation.ReflTransGen.refl h1) h2) h3
  exact claim5_concurrency_bound 1 2 ⟨1, 0, [Pc.inTransport, Pc.start]⟩ hreach

/-- C6, counterexample: a commit event that lacks author identity (it
has a `commit` substructure but no `author`) contributes to NO
`RepositoryAuthorCommitsNum` at all — the aggregation returns an empty
list, with no `"Unknown"` entry.  The `'Unknown'` fallback applies only
to a missing `name` inside an existing truthy `commit.author`
substructure; events without that substructure are dropped. -/
theorem claim6_counterexample :
    countByAuthor
      [JVal.obj [("commit", JVal.obj [("message", JVal.str "fix")])]]
      = .ok [] := rfl

/-- C6 as amended: every commit event carrying a truthy `commit.author`
object contributes exactly one unit, keyed by its `name` field with
`"Unknown"` substituted when `name` is absent (this is `eventKey`);
events without such a substructure are dropped.  The total count equals
the number of qualifying events and the output is keyed in first-seen
author order. -/
theorem claim6_amended_aggregation (commits : List JVal)
    (l : List RepositoryAuthorCommitsNum)
    (h : countByAuthor commits = .ok l) :
    (l.map RepositoryAuthorCommitsNum.commits_num).sum
        = (commits.filterMap eventKey).length ∧
      l.map RepositoryAuthorCommitsNum.author
        = (commits.filterMap eventKey).foldl insertFS [] := by
  have hl := countByAuthor_ok commits l h
  subst hl
  constructor
  · rw [List.map_map]
    have : (RepositoryAuthorCommitsNum.commits_num ∘
        fun p : JVal × Nat => (⟨p.1, p.2⟩ : RepositoryAuthorCommitsNum))
        = Prod.snd := rfl
    rw [this]
    have := foldl_bump_sum (commits.filterMap eventKey) []
    simpa using this
  · rw [List.map_map]
    have : (RepositoryAuthorCommitsNum.author ∘
        fun p : JVal × Nat => (⟨p.1, p.2⟩ : RepositoryAuthorCommitsNum))
        = Prod.fst := rfl
    rw [this]
    have := foldl_bump_fst (commits.filterMap eventKey) []
    simpa using this

/-- Witness for the amended C6: two commits by alice, one authorless
event (dropped) and one commit whose author has no `name` (counted as
`"Unknown"`). -/
theorem claim6_amended_aggregation_witness :
    (([⟨JVal.str "alice", 2⟩, ⟨JVal.str "Unknown", 1⟩] :
        List RepositoryAuthorCommitsNum).map
          RepositoryAuthorCommitsNum.commits_num).sum
      = (([JVal.obj [("commit", JVal.obj [("author",
            JVal.obj [("name", JVal.str "alice")])])],
          JVal.obj [("commit", JVal.obj [("message", JVal.str "m")])],
          JVal.obj [("commit", JVal.obj [("author",
            JVal.obj [("name", JVal.str "alice")])])],
          JVal.obj [("commit", JVal.obj [("author",
            JVal.obj [("email", JVal.str "x")])])]] :
          List JVal).filterMap eventKey).length ∧
    ([⟨JVal.str "alice", 2⟩, ⟨JVal.str "Unknown", 1⟩] :
        List RepositoryAuthorCommitsNum).map
          RepositoryAuthorCommitsNum.author
      = (([JVal.obj [("commit", JVal.obj [("author",
            JVal.obj [("name", JVal.str "alice")])])],
          JVal.obj [("commit", JVal.obj [("message", JVal.str "m")])],
          JVal.obj [("commit", JVal.obj [("author",
            JVal.obj [("name", JVal.str "alice")])])],
          JVal.obj [("commit", JVal.obj [("author",
            JVal.obj [("email", JVal.str "x")])])]] :
          List JVal).filterMap eventKey).foldl insertFS [] :=
  claim6_amended_aggregation
    [JVal.obj [("commit", JVal.obj [("author",
        JVal.obj [("name", JVal.str "alice")])])],
      JVal.obj [("commit", JVal.obj [("message", JVal.str "m")])],
      JVal.obj [("commit", JVal.obj [("author",
        JVal.obj [("name", JVal.str "alice")])])],
      JVal.obj [("commit", JVal.obj [("author",
        JVal.obj [("email", JVal.str "x")])])]]
    [⟨JVal.str "alice", 2⟩, ⟨JVal.str "Unknown", 1⟩] rfl

/-- C10: every author-count produced by the commit aggregation is
strictly positive, and the author keys of one entity's output are
pairwise distinct. -/
theorem claim10_aggregation_invariants (commits : List JVal)
    (l : List RepositoryAuthorCommitsNum)
    (h : countByAuthor commits = .ok l) :
    (∀ x ∈ l, 1 ≤ x.commits_num) ∧
      (l.map RepositoryAuthorCommitsNum.author).Nodup := by
  have hl := countByAuthor_ok commits l h
  subst hl
  constructor
  · intro x hx
    simp only [List.mem_map] at hx
    obtain ⟨p, hp, hpx⟩ := hx
    have := foldl_bump_pos (commits.filterMap eventKey) []
      (by intro q hq; simp at hq) p hp
    rw [← hpx]
    exact this
  · rw [List.map_map]
    have : (RepositoryAuthorCommitsNum.author ∘
        fun p : JVal × Nat => (⟨p.1, p.2⟩ : RepositoryAuthorCommitsNum))
        = Prod.fst := rfl
    rw [this, foldl_bump_fst]
    exact foldl_insertFS_nodup (commits.filterMap eventKey) [] (by simp)

/-- Witness for C10 on a concrete commit list with a repeated author. -/
theorem claim10_aggregation_invariants_witness :
    1 ≤ (⟨JVal.str "alice", 2⟩ : RepositoryAuthorCommitsNum).commits_num ∧
    (([⟨JVal.str "alice", 2⟩, ⟨JVal.str "bob", 1⟩] :
        List RepositoryAuthorCommitsNum).map
          RepositoryAuthorCommitsNum.author).Nodup := by
  obtain ⟨hpos, hnd⟩ := claim10_aggregation_invariants
    [JVal.obj [("commit", JVal.obj [("author",
        JVal.obj [("name", JVal.str "alice")])])],
      JVal.obj [("commit", JVal.obj [("author",
        JVal.obj [("name", JVal.str "alice")])])],
      JVal.obj [("commit", JVal.obj [("author",
        JVal.obj [("name", JVal.str "bob")])])]]
    [⟨JVal.str "alice", 2⟩, ⟨JVal.str "bob", 1⟩] rfl
  exact ⟨hpos ⟨JVal.str "alice", 2⟩ (by decide), hnd⟩

/-- C9, counterexample: non-positive capacities are NOT rejected at
construction — `requests_per_second = 0`, a negative
`requests_per_second`, and `max_concurrent_requests = 0` are all
accepted without any error. -/
theorem claim9_counterexample :
    GithubReposScrapper_init 10 0 = .ok (10, 0, []) ∧
    GithubReposScrapper_init 5 (-3) = .ok (5, -3, []) ∧
    GithubReposScrapper_init 0 30 = .ok (0, 30, []) :=
  ⟨rfl, rfl, rfl⟩

/-- C9 as amended: construction performs no capacity validation of its
own; the only synchronous rejection is `ValueError` from
`asyncio.Semaphore` when `max_concurrent_requests` is negative.  Every
`max_concurrent_requests ≥ 0` is accepted with any
`requests_per_second`, including non-positive ones. -/
theorem claim9_amended_construction (mcr rps : Int) :
    (mcr < 0 → GithubReposScrapper_init mcr rps = .error .valueError) ∧
    (0 ≤ mcr → GithubReposScrapper_init mcr rps = .ok (mcr, rps, [])) := by
  constructor
  · intro h
    simp [GithubReposScrapper_init, Semaphore_init, RateLimiter_init,
      bind, Except.bind, h]
  · intro h
    have h' : ¬mcr < 0 := not_lt.mpr h
    simp [GithubReposScrapper_init, Semaphore_init, RateLimiter_init,
      bind, Except.bind, h']

/-- Witness for the amended C9 at concrete capacities. -/
theorem claim9_amended_construction_witness :
    GithubReposScrapper_init (-1) 30 = .error .valueError ∧
    GithubReposScrapper_init 10 0 = .ok (10, 0, []) :=
  ⟨(claim9_amended_construction (-1) 30).1 (by norm_num),
    (claim9_amended_construction 10 0).2 (by norm_num)⟩

end Scrapper
